import Mathlib

/-!
Shallow embedding of `downstream/quesst14/expert.py` (QbE-STD matching and
decision engine): the pairwise match dispatcher, result aggregator, threshold
estimator and decision report builder of `DownstreamExpert.log_records`,
together with the `match` wrapper around the segmental-DTW kernel.

Feature sequences are abstracted to a type `α`; the segmental-DTW cost
function (implemented in a separate Cython module) is a parameter
`sdtw : α → α → ℚ`.  Floating-point scores are modelled as rationals.
Completion order of the worker pool is modelled by quantifying over
permutations of the submitted job list.
-/

namespace Quesst14

/-- `beginsWith pat s` is true when `pat` occurs at the very start of `s`. -/
def beginsWith : List Char → List Char → Bool
  | [], _ => true
  | _ :: _, [] => false
  | p :: ps, c :: cs => p == c && beginsWith ps cs

/-- Replaces every non-overlapping occurrence of `pat` in the input, scanning
left to right, by `rep` — the semantics of Python's `str.replace` for a
non-empty pattern.  `fuel` bounds the recursion; the wrapper `replaceAll`
supplies `fuel = s.length`, which is always enough since every step consumes
at least one character. -/
def replaceAllAux (pat rep : List Char) : Nat → List Char → List Char
  | _, [] => []
  | 0, s => s
  | fuel + 1, c :: rest =>
    if !pat.isEmpty && beginsWith pat (c :: rest) then
      rep ++ replaceAllAux pat rep fuel (List.drop (pat.length - 1) rest)
    else
      c :: replaceAllAux pat rep fuel rest

/-- Python `s.replace(pat, rep)` for a non-empty pattern. -/
def replaceAll (pat rep s : List Char) : List Char :=
  replaceAllAux pat rep s.length s

/-- `expert.py` lines 89 and 91: `name.replace(".wav", "")` applied to query
and document names before submission.  Note this removes *every* occurrence
of the substring `".wav"`, not only a trailing extension. -/
def stripWav (s : String) : String :=
  ⟨replaceAll ".wav".data [] s.data⟩

/-- One completed pairwise match: the tuple returned by `match`
(`expert.py` line 148). -/
structure MatchResult where
  query_name : String
  doc_name : String
  score : ℚ
  deriving DecidableEq

/-- `expert.py` lines 146-148: the alignment wrapper.  It runs the
segmental-DTW kernel and negates the cost so that higher score is better. -/
def matchPair {α : Type} (sdtw : α → α → ℚ) (query doc : α)
    (query_name doc_name : String) : MatchResult :=
  ⟨query_name, doc_name, -1 * sdtw query doc⟩

/-- `expert.py` lines 88-94: the nested submission loop of the pairwise match
dispatcher.  One job per (query, document) pair, in row-major order, with
`".wav"` stripped from both names before submission. -/
def submitJobs {α : Type} (sdtw : α → α → ℚ)
    (queries docs : List (α × String)) : List MatchResult :=
  queries.flatMap fun qp =>
    docs.map fun dp => matchPair sdtw qp.1 dp.1 (stripWav qp.2) (stripWav dp.2)

/-- `expert.py` line 100: `results[query_name].append((doc_name, score))` on a
`defaultdict(list)`.  The insertion-ordered dict is modelled as an association
list: append to the existing group if the key is present, otherwise add a new
key at the end. -/
def addResult (r : MatchResult) :
    List (String × List (String × ℚ)) → List (String × List (String × ℚ))
  | [] => [(r.query_name, [(r.doc_name, r.score)])]
  | (q, ds) :: rest =>
    if q = r.query_name then (q, ds ++ [(r.doc_name, r.score)]) :: rest
    else (q, ds) :: addResult r rest

/-- `expert.py` lines 96-101: the result aggregator, folding completed match
results (in arrival order) into the grouped `results` mapping. -/
def aggregate (arrivals : List MatchResult) :
    List (String × List (String × ℚ)) :=
  arrivals.foldl (fun acc r => addResult r acc) []

/-- Lookup of one query's group in the aggregated mapping (a `defaultdict`
read: absent keys give the empty list). -/
def groupOf (acc : List (String × List (String × ℚ))) (name : String) :
    List (String × ℚ) :=
  match acc with
  | [] => []
  | (q, ds) :: rest => if q = name then ds else groupOf rest name

/-- `expert.py` line 105: `int(0.99 * len(scores))`.  Modelled exactly as
`⌊99·n/100⌋`; the double-precision product `0.99 * n` truncates to the same
integer for every list length a run can produce (the relative error of the
float literal `0.99` is below 9·10⁻¹⁸, an order of magnitude under the
rounding threshold). -/
def thresholdIndex (n : Nat) : Nat :=
  99 * n / 100

/-- The two scalars derived from the flat score list (`expert.py` 103-106). -/
structure ScoreThreshold where
  score_cut : ℚ
  score_min : ℚ
  deriving DecidableEq

/-- `expert.py` lines 103-106: sort all scores ascending, take the element at
`int(0.99 * len(scores))` as the cutoff and the first element as the minimum.
On an empty list the indexing raises (uncaught, fatal); that failure is
modelled as `none`. -/
def thresholdEstimator (scores : List ℚ) : Option ScoreThreshold :=
  let sorted := List.insertionSort (· ≤ ·) scores
  match sorted[thresholdIndex scores.length]?, sorted[0]? with
  | some cut, some mn => some ⟨cut, mn⟩
  | _, _ => none

/-- One `term` element of the report (`expert.py` lines 125-135), keeping the
data-bearing attributes: `file`, the numeric value rendered into `score`
(the `.4f` rendering itself is serialization), and `decision`. -/
structure TermEntry where
  file : String
  score : ℚ
  decision : String
  deriving DecidableEq

/-- `expert.py` lines 125-135: one report entry for a `(doc_name, score)`
pair, given the run's threshold and minimum. -/
def mkTerm (score_cut score_min : ℚ) (ds : String × ℚ) : TermEntry :=
  ⟨ds.1, ds.2 - score_min, if ds.2 > score_cut then "YES" else "NO"⟩

/-- `expert.py` lines 117-135: the decision report builder, one group per
query in the aggregated mapping, one `term` entry per `(doc_name, score)`
pair of the group. -/
def buildReport (results : List (String × List (String × ℚ)))
    (score_cut score_min : ℚ) : List (String × List TermEntry) :=
  results.map fun g => (g.1, g.2.map (mkTerm score_cut score_min))

/-- The tail of `log_records` after collection: threshold estimation followed
by report building.  A threshold failure (empty score list) aborts the run
with no report. -/
def runPipeline (arrivals : List MatchResult) :
    Option (List (String × List TermEntry)) :=
  match thresholdEstimator (arrivals.map MatchResult.score) with
  | none => none
  | some t => some (buildReport (aggregate arrivals) t.score_cut t.score_min)

/-- Modelled from the spec: the spec's reading of name stripping — `file` =
document name "with any container-format suffix stripped, e.g. a trailing
audio extension removed", i.e. remove one trailing `".wav"` and leave all
other characters verbatim.  Used only to compare against the source's
`stripWav`. -/
def stripTrailingWav (s : String) : String :=
  if beginsWith ".wav".data.reverse s.data.reverse then
    ⟨s.data.take (s.data.length - 4)⟩
  else s

/-! ### Helper lemmas about the aggregator -/

theorem groupOf_addResult (r : MatchResult) (acc : List (String × List (String × ℚ)))
    (q : String) :
    groupOf (addResult r acc) q =
      if r.query_name = q then groupOf acc q ++ [(r.doc_name, r.score)]
      else groupOf acc q := by
  induction acc with
  | nil =>
    by_cases h : r.query_name = q <;> simp [addResult, groupOf, h]
  | cons hd tl ih =>
    obtain ⟨k, ds⟩ := hd
    by_cases hk : k = r.query_name
    · by_cases hq : k = q
      · have hr : r.query_name = q := hk.symm.trans hq
        simp [addResult, groupOf, hk, hq, hr]
      · have hr : ¬ r.query_name = q := fun h => hq (hk.trans h)
        simp [addResult, groupOf, hk, hq, hr]
    · by_cases hq : k = q
      · have hr : ¬ r.query_name = q := fun h => hk (hq.trans h.symm)
        rw [hq] at hk
        simp [addResult, groupOf, hk, hq, hr]
      · simp [addResult, groupOf, hk, hq, ih]

theorem groupOf_foldl (l : List MatchResult) (acc : List (String × List (String × ℚ)))
    (q : String) :
    groupOf (l.foldl (fun a r => addResult r a) acc) q =
      groupOf acc q ++
        (l.filter fun r => decide (r.query_name = q)).map fun r => (r.doc_name, r.score) := by
  induction l generalizing acc with
  | nil => simp
  | cons r l ih =>
    rw [List.foldl_cons, ih, groupOf_addResult, List.filter_cons]
    by_cases h : r.query_name = q <;> simp [h]

theorem groupOf_aggregate (l : List MatchResult) (q : String) :
    groupOf (aggregate l) q =
      (l.filter fun r => decide (r.query_name = q)).map fun r => (r.doc_name, r.score) := by
  rw [aggregate, groupOf_foldl]
  rfl

theorem mem_keys_addResult (r : MatchResult) (acc : List (String × List (String × ℚ)))
    (q : String) :
    q ∈ (addResult r acc).map Prod.fst ↔
      q ∈ acc.map Prod.fst ∨ q = r.query_name := by
  induction acc with
  | nil => simp [addResult]
  | cons hd tl ih =>
    obtain ⟨k, ds⟩ := hd
    by_cases hk : k = r.query_name
    · subst hk
      simp [addResult]
      tauto
    · simp [addResult, hk, ih]
      tauto

theorem mem_keys_foldl (l : List MatchResult) (acc : List (String × List (String × ℚ)))
    (q : String) :
    q ∈ (l.foldl (fun a r => addResult r a) acc).map Prod.fst ↔
      q ∈ acc.map Prod.fst ∨ ∃ r ∈ l, r.query_name = q := by
  induction l generalizing acc with
  | nil => simp
  | cons r l ih =>
    rw [List.foldl_cons, ih, mem_keys_addResult]
    constructor
    · rintro ((h | h) | ⟨r', hr', hq⟩)
      · exact Or.inl h
      · exact Or.inr ⟨r, List.mem_cons_self .., h.symm⟩
      · exact Or.inr ⟨r', List.mem_cons_of_mem _ hr', hq⟩
    · rintro (h | ⟨r', hr', hq⟩)
      · exact Or.inl (Or.inl h)
      · rcases List.mem_cons.mp hr' with h | h
        · subst h
          exact Or.inl (Or.inr hq.symm)
        · exact Or.inr ⟨r', h, hq⟩

theorem mem_keys_aggregate (l : List MatchResult) (q : String) :
    q ∈ (aggregate l).map Prod.fst ↔ ∃ r ∈ l, r.query_name = q := by
  rw [aggregate, mem_keys_foldl]
  simp

theorem pairs_addResult (r : MatchResult) (acc : List (String × List (String × ℚ))) :
    ∀ g' ∈ addResult r acc, ∀ p ∈ g'.2,
      (∃ g ∈ acc, g.1 = g'.1 ∧ p ∈ g.2) ∨
        (g'.1 = r.query_name ∧ p.1 = r.doc_name ∧ p.2 = r.score) := by
  induction acc with
  | nil =>
    intro g' hg p hp
    simp only [addResult, List.mem_singleton] at hg
    rw [hg] at hp
    simp only [List.mem_singleton] at hp
    exact Or.inr ⟨by rw [hg], by rw [hp], by rw [hp]⟩
  | cons hd tl ih =>
    obtain ⟨k, ds⟩ := hd
    intro g' hg p hp
    by_cases hk : k = r.query_name
    · rw [addResult, if_pos hk] at hg
      rcases List.mem_cons.mp hg with hg1 | hg1
      · rw [hg1] at hp
        simp only at hp
        rcases List.mem_append.mp hp with h | h
        · exact Or.inl ⟨(k, ds), List.mem_cons_self _ _, by rw [hg1], h⟩
        · have hpe := List.mem_singleton.mp h
          exact Or.inr ⟨by rw [hg1, hk], by rw [hpe], by rw [hpe]⟩
      · exact Or.inl ⟨g', List.mem_cons_of_mem _ hg1, rfl, hp⟩
    · rw [addResult, if_neg hk] at hg
      rcases List.mem_cons.mp hg with hg1 | hg1
      · exact Or.inl ⟨(k, ds), List.mem_cons_self _ _, by rw [hg1], by rw [hg1] at hp; exact hp⟩
      · rcases ih g' hg1 p hp with ⟨g, hgmem, hfst, hpmem⟩ | h
        · exact Or.inl ⟨g, List.mem_cons_of_mem _ hgmem, hfst, hpmem⟩
        · exact Or.inr h

theorem pairs_foldl (l : List MatchResult) :
    ∀ acc : List (String × List (String × ℚ)),
      ∀ g' ∈ l.foldl (fun a r => addResult r a) acc, ∀ p ∈ g'.2,
        (∃ g ∈ acc, g.1 = g'.1 ∧ p ∈ g.2) ∨
          ∃ r ∈ l, g'.1 = r.query_name ∧ p.1 = r.doc_name ∧ p.2 = r.score := by
  induction l with
  | nil =>
    intro acc g' hg p hp
    exact Or.inl ⟨g', hg, rfl, hp⟩
  | cons r l ih =>
    intro acc g' hg p hp
    rw [List.foldl_cons] at hg
    rcases ih (addResult r acc) g' hg p hp with ⟨g, hgmem, hfst, hpmem⟩ | ⟨r', hr', hrest⟩
    · rcases pairs_addResult r acc g hgmem p hpmem with ⟨g0, hg0, hfst0, hp0⟩ | h
      · exact Or.inl ⟨g0, hg0, hfst0.trans hfst, hp0⟩
      · exact Or.inr ⟨r, List.mem_cons_self _ _, hfst.symm.trans h.1, h.2⟩
    · exact Or.inr ⟨r', List.mem_cons_of_mem _ hr', hrest⟩

theorem pairs_aggregate (l : List MatchResult)
    (g' : String × List (String × ℚ)) (hg : g' ∈ aggregate l)
    (p : String × ℚ) (hp : p ∈ g'.2) :
    ∃ r ∈ l, g'.1 = r.query_name ∧ p.1 = r.doc_name ∧ p.2 = r.score := by
  rcases pairs_foldl l [] g' hg p hp with ⟨g, hgmem, _⟩ | h
  · simp at hgmem
  · exact h

/-! ### Helper lemmas about the dispatcher -/

theorem mem_submitJobs {α : Type} (sdtw : α → α → ℚ)
    (queries docs : List (α × String)) (r : MatchResult) :
    r ∈ submitJobs sdtw queries docs ↔
      ∃ qp ∈ queries, ∃ dp ∈ docs,
        matchPair sdtw qp.1 dp.1 (stripWav qp.2) (stripWav dp.2) = r := by
  simp [submitJobs, List.mem_flatMap, List.mem_map]

theorem submitJobs_length {α : Type} (sdtw : α → α → ℚ)
    (queries docs : List (α × String)) :
    (submitJobs sdtw queries docs).length = queries.length * docs.length := by
  induction queries with
  | nil => simp [submitJobs]
  | cons qp qs ih =>
    simp only [submitJobs, List.flatMap_cons, List.length_append, List.length_map,
      List.length_cons] at *
    rw [ih, Nat.succ_mul]
    omega

theorem submitJobs_getElem {α : Type} (sdtw : α → α → ℚ)
    (queries docs : List (α × String)) :
    ∀ i j : Nat, ∀ _ : i < queries.length, ∀ _ : j < docs.length,
      (submitJobs sdtw queries docs)[i * docs.length + j]? =
        some (matchPair sdtw (queries[i]).1 (docs[j]).1
          (stripWav (queries[i]).2) (stripWav (docs[j]).2)) := by
  induction queries with
  | nil =>
    intro i j hi _
    exact absurd hi (Nat.not_lt_zero i)
  | cons qp qs ih =>
    intro i j hi hj
    cases i with
    | zero =>
      have hjlen : j <
          (docs.map fun dp => matchPair sdtw qp.1 dp.1 (stripWav qp.2) (stripWav dp.2)).length := by
        simpa using hj
      rw [submitJobs, List.flatMap_cons]
      rw [show (0 * docs.length + j) = j by omega]
      rw [List.getElem?_append_left hjlen, List.getElem?_map,
        List.getElem?_eq_getElem hj]
      rfl
    | succ i' =>
      have hi' : i' < qs.length := by simpa using Nat.lt_of_succ_lt_succ hi
      have hlen :
          (docs.map fun dp => matchPair sdtw qp.1 dp.1 (stripWav qp.2) (stripWav dp.2)).length ≤
            (i' + 1) * docs.length + j := by
        simp [Nat.succ_mul]
        omega
      rw [submitJobs, List.flatMap_cons, List.getElem?_append_right hlen]
      have harith :
          (i' + 1) * docs.length + j -
            (docs.map fun dp => matchPair sdtw qp.1 dp.1 (stripWav qp.2) (stripWav dp.2)).length =
          i' * docs.length + j := by
        simp [Nat.succ_mul]
        omega
      rw [harith]
      have := ih i' j hi' hj
      rw [submitJobs] at this
      simpa using this

/-! ### Helper lemmas about the threshold estimator -/

theorem thresholdIndex_lt (n : Nat) (h : 1 ≤ n) : thresholdIndex n < n := by
  have h2 : 99 * n < n * 100 := by omega
  exact (Nat.div_lt_iff_lt_mul (by norm_num)).mpr h2

theorem thresholdEstimator_some (scores : List ℚ) (hne : scores ≠ []) :
    ∃ t : ScoreThreshold, thresholdEstimator scores = some t ∧
      (List.insertionSort (· ≤ ·) scores)[thresholdIndex scores.length]? = some t.score_cut ∧
      (List.insertionSort (· ≤ ·) scores)[0]? = some t.score_min := by
  have hlen : (List.insertionSort (· ≤ ·) scores).length = scores.length :=
    (List.perm_insertionSort _ _).length_eq
  have hn : 1 ≤ scores.length := List.length_pos.mpr hne
  have hidx : thresholdIndex scores.length < (List.insertionSort (· ≤ ·) scores).length := by
    rw [hlen]
    exact thresholdIndex_lt _ hn
  have h0 : 0 < (List.insertionSort (· ≤ ·) scores).length := by omega
  refine ⟨⟨(List.insertionSort (· ≤ ·) scores)[thresholdIndex scores.length],
    (List.insertionSort (· ≤ ·) scores)[0]⟩, ?_,
    List.getElem?_eq_getElem hidx, List.getElem?_eq_getElem h0⟩
  rw [thresholdEstimator]
  simp only [List.getElem?_eq_getElem hidx, List.getElem?_eq_getElem h0]

/-! ### Claim theorems -/

/-- Claim C1: for every (query, doc, score) entry of the report, the entry the
builder writes carries `file` = the stored doc name, a normalized score equal
to `score - score_min` exactly, and `decision = "YES"` iff `score > score_cut`
under strict inequality (a score exactly equal to the cutoff yields `"NO"`). -/
theorem report_entries_decision_consistent
    (results : List (String × List (String × ℚ))) (score_cut score_min : ℚ)
    (q : String) (ds : List (String × ℚ)) (hq : (q, ds) ∈ results)
    (d : String) (s : ℚ) (_hd : (d, s) ∈ ds) :
    (q, ds.map (mkTerm score_cut score_min)) ∈ buildReport results score_cut score_min ∧
    (mkTerm score_cut score_min (d, s)).file = d ∧
    (mkTerm score_cut score_min (d, s)).score = s - score_min ∧
    ((mkTerm score_cut score_min (d, s)).decision = "YES" ↔ s > score_cut) ∧
    ((mkTerm score_cut score_min (d, s)).decision = "NO" ↔ ¬ s > score_cut) := by
  refine ⟨List.mem_map.mpr ⟨(q, ds), hq, rfl⟩, rfl, rfl, ?_, ?_⟩
  · by_cases h : s > score_cut <;> simp [mkTerm, h]
  · by_cases h : s > score_cut <;> simp [mkTerm, h]

theorem report_entries_decision_consistent_witness :
    (("q", [("d", (1:ℚ))].map (mkTerm 1 0)) ∈ buildReport [("q", [("d", (1:ℚ))])] 1 0) ∧
    (mkTerm (1:ℚ) 0 ("d", 1)).file = "d" ∧
    (mkTerm (1:ℚ) 0 ("d", 1)).score = 1 - 0 ∧
    ((mkTerm (1:ℚ) 0 ("d", 1)).decision = "YES" ↔ (1:ℚ) > 1) ∧
    ((mkTerm (1:ℚ) 0 ("d", 1)).decision = "NO" ↔ ¬ (1:ℚ) > 1) :=
  report_entries_decision_consistent [("q", [("d", (1:ℚ))])] 1 0 "q" [("d", (1:ℚ))]
    (List.mem_singleton.mpr rfl) "d" 1 (List.mem_singleton.mpr rfl)

/-- Claim C2: for every non-empty score list the threshold estimator returns
`score_cut` = the element at index ⌊0.99·N⌋ of any ascending sort of the list
(nearest-rank, no interpolation, the element used verbatim) and `score_min` =
the minimum of all scores. -/
theorem thresholdEstimator_percentile_min (scores l : List ℚ)
    (hne : scores ≠ []) (hperm : l.Perm scores) (hsort : l.Sorted (· ≤ ·)) :
    ∃ t : ScoreThreshold, thresholdEstimator scores = some t ∧
      l[thresholdIndex scores.length]? = some t.score_cut ∧
      t.score_min ∈ scores ∧ ∀ x ∈ scores, t.score_min ≤ x := by
  have hsorted : List.insertionSort (· ≤ ·) scores = l :=
    List.eq_of_perm_of_sorted ((List.perm_insertionSort _ _).trans hperm.symm)
      (List.sorted_insertionSort _ _) hsort
  obtain ⟨t, ht, hcut, hmin⟩ := thresholdEstimator_some scores hne
  rw [hsorted] at hcut hmin
  refine ⟨t, ht, hcut, ?_, ?_⟩
  · rcases l with _ | ⟨a, tl⟩
    · exact absurd hperm.symm.eq_nil hne
    · have ha : a = t.score_min := by simpa using hmin
      exact ha ▸ hperm.subset (List.mem_cons_self _ _)
  · intro x hx
    rcases l with _ | ⟨a, tl⟩
    · exact absurd hperm.symm.eq_nil hne
    · have ha : a = t.score_min := by simpa using hmin
      rcases List.mem_cons.mp (hperm.mem_iff.mpr hx) with h | h
      · exact le_of_eq (ha.symm.trans h.symm)
      · exact ha ▸ List.rel_of_sorted_cons hsort x h

theorem thresholdEstimator_percentile_min_witness :
    ∃ t : ScoreThreshold, thresholdEstimator [(3:ℚ), 1, 2] = some t ∧
      ([(1:ℚ), 2, 3])[thresholdIndex ([(3:ℚ), 1, 2] : List ℚ).length]? = some t.score_cut ∧
      t.score_min ∈ [(3:ℚ), 1, 2] ∧ ∀ x ∈ [(3:ℚ), 1, 2], t.score_min ≤ x :=
  thresholdEstimator_percentile_min [(3:ℚ), 1, 2] [(1:ℚ), 2, 3]
    (by decide) (by decide) (by decide)

/-- Claim C3: on an empty score list the threshold estimator fails — the
percentile indexing has no value (the code's uncaught IndexError, the spec's
InsufficientData) — and the failure is fatal: the pipeline yields no report. -/
theorem thresholdEstimator_empty_fails :
    thresholdEstimator [] = none ∧ runPipeline [] = none := by
  exact ⟨rfl, rfl⟩

/-- Claim C5: the alignment wrapper emits score = -(segmental-DTW cost), so a
lower alignment cost maps to a higher score. -/
theorem matchPair_score_neg_cost {α : Type} (sdtw : α → α → ℚ) (query doc : α)
    (query_name doc_name : String) :
    (matchPair sdtw query doc query_name doc_name).score = -(sdtw query doc) ∧
    (matchPair sdtw query doc query_name doc_name).query_name = query_name ∧
    (matchPair sdtw query doc query_name doc_name).doc_name = doc_name := by
  refine ⟨?_, rfl, rfl⟩
  show -1 * sdtw query doc = -(sdtw query doc)
  ring

/-- Claim C6: an empty query set or an empty document set yields an empty job
set, with no error (the dispatcher is total and returns the empty list). -/
theorem submitJobs_degenerate {α : Type} (sdtw : α → α → ℚ)
    (queries docs : List (α × String)) :
    submitJobs sdtw [] docs = [] ∧ submitJobs sdtw queries [] = [] := by
  constructor
  · simp [submitJobs]
  · induction queries with
    | nil => simp [submitJobs]
    | cons qp qs ih =>
      rw [submitJobs, List.flatMap_cons]
      rw [submitJobs] at ih
      simp only [List.map_nil, List.nil_append]
      exact ih

/-- Claim C10: for a non-empty score list of length N the percentile index
int(0.99·N) is strictly below N (and at least 0), so the lookup into the
sorted score list is in bounds and the estimator succeeds. -/
theorem thresholdIndex_safe (scores : List ℚ) (h : scores ≠ []) :
    thresholdIndex scores.length < scores.length ∧
      (thresholdEstimator scores).isSome := by
  have hn : 1 ≤ scores.length := List.length_pos.mpr h
  refine ⟨thresholdIndex_lt _ hn, ?_⟩
  obtain ⟨t, ht, -, -⟩ := thresholdEstimator_some scores h
  rw [ht]
  rfl

theorem thresholdIndex_safe_witness :
    thresholdIndex ([(5:ℚ)] : List ℚ).length < ([(5:ℚ)] : List ℚ).length ∧
      (thresholdEstimator [(5:ℚ)]).isSome :=
  thresholdIndex_safe [(5:ℚ)] (by decide)

/-- Claim C4: for every query set, document set and completion order (any
worker count), exactly |queries|·|docs| match results are submitted and
collected, and the job for the pair (i, j) sits at position i·|docs|+j of the
submission list — every pair appears exactly once, no duplicates and no
omissions. -/
theorem dispatcher_cross_product {α : Type} (sdtw : α → α → ℚ)
    (queries docs : List (α × String)) (arrivals : List MatchResult)
    (hperm : arrivals.Perm (submitJobs sdtw queries docs)) :
    arrivals.length = queries.length * docs.length ∧
    (∀ i j : Nat, ∀ hi : i < queries.length, ∀ hj : j < docs.length,
      (submitJobs sdtw queries docs)[i * docs.length + j]? =
        some (matchPair sdtw (queries[i]).1 (docs[j]).1
          (stripWav (queries[i]).2) (stripWav (docs[j]).2))) := by
  refine ⟨?_, fun i j hi hj => submitJobs_getElem sdtw queries docs i j hi hj⟩
  rw [hperm.length_eq, submitJobs_length]

theorem dispatcher_cross_product_witness :
    (submitJobs (fun _ _ => (0:ℚ)) [(((), "q") : Unit × String)]
      [((), "d1"), ((), "d2")]).length = 1 * 2 :=
  (dispatcher_cross_product (fun _ _ => (0:ℚ)) [(((), "q") : Unit × String)]
    [((), "d1"), ((), "d2")] _ (List.Perm.refl _)).1

/-- Claim C8: two runs of the pipeline on identical inputs, with any worker
count and any two completion orders of the pairwise results, give per-query
groupings that are equal as multisets (hence as sets) and identical
ScoreThreshold values. -/
theorem pipeline_completion_order_independent {α : Type} (sdtw : α → α → ℚ)
    (queries docs : List (α × String)) (l1 l2 : List MatchResult)
    (h1 : l1.Perm (submitJobs sdtw queries docs))
    (h2 : l2.Perm (submitJobs sdtw queries docs)) :
    (∀ q : String, (groupOf (aggregate l1) q).Perm (groupOf (aggregate l2) q)) ∧
    thresholdEstimator (l1.map MatchResult.score) =
      thresholdEstimator (l2.map MatchResult.score) := by
  have hp : l1.Perm l2 := h1.trans h2.symm
  constructor
  · intro q
    rw [groupOf_aggregate, groupOf_aggregate]
    exact (hp.filter _).map _
  · have hsort : List.insertionSort (· ≤ ·) (l1.map MatchResult.score) =
        List.insertionSort (· ≤ ·) (l2.map MatchResult.score) :=
      List.eq_of_perm_of_sorted
        ((List.perm_insertionSort _ _).trans
          (((hp.map _)).trans (List.perm_insertionSort _ _).symm))
        (List.sorted_insertionSort _ _) (List.sorted_insertionSort _ _)
    have hlen : (l1.map MatchResult.score).length = (l2.map MatchResult.score).length :=
      (hp.map _).length_eq
    unfold thresholdEstimator
    rw [hsort, hlen]

theorem pipeline_completion_order_independent_witness :
    thresholdEstimator (((submitJobs (fun _ _ => (0:ℚ)) [(((), "q") : Unit × String)]
        [((), "d1"), ((), "d2")]).reverse).map MatchResult.score) =
      thresholdEstimator ((submitJobs (fun _ _ => (0:ℚ)) [(((), "q") : Unit × String)]
        [((), "d1"), ((), "d2")]).map MatchResult.score) :=
  (pipeline_completion_order_independent (fun _ _ => (0:ℚ))
    [(((), "q") : Unit × String)] [((), "d1"), ((), "d2")] _ _
    (List.reverse_perm _) (List.Perm.refl _)).2

/-- Claim C9 (amended): after aggregation, for every input query the
*stripped* query name — the name as carried in the submitted jobs, with every
occurrence of ".wav" removed — appears as a key whenever the document set is
non-empty; and within each query's group the entries appear in arrival order
(the in-order filter of the arrival list), not sorted by score. -/
theorem aggregate_keys_arrival_order {α : Type} (sdtw : α → α → ℚ)
    (queries docs : List (α × String)) (arrivals : List MatchResult)
    (hperm : arrivals.Perm (submitJobs sdtw queries docs)) (hdocs : docs ≠ []) :
    (∀ qp ∈ queries, stripWav qp.2 ∈ (aggregate arrivals).map Prod.fst) ∧
    (∀ q : String, groupOf (aggregate arrivals) q =
      (arrivals.filter fun r => decide (r.query_name = q)).map
        fun r => (r.doc_name, r.score)) := by
  constructor
  · intro qp hqp
    rw [mem_keys_aggregate]
    rcases List.exists_mem_of_ne_nil docs hdocs with ⟨dp, hdp⟩
    refine ⟨matchPair sdtw qp.1 dp.1 (stripWav qp.2) (stripWav dp.2), ?_, rfl⟩
    exact hperm.mem_iff.mpr
      ((mem_submitJobs sdtw queries docs _).mpr ⟨qp, hqp, dp, hdp, rfl⟩)
  · intro q
    exact groupOf_aggregate arrivals q

theorem aggregate_keys_arrival_order_witness :
    stripWav "a" ∈ (aggregate (submitJobs (fun _ _ => (0:ℚ))
      [(((), "a") : Unit × String)] [((), "d")])).map Prod.fst :=
  (aggregate_keys_arrival_order (fun _ _ => (0:ℚ)) [(((), "a") : Unit × String)]
    [((), "d")] _ (List.Perm.refl _) (by decide)).1 ((), "a")
    (List.mem_singleton.mpr rfl)

/-- Claim C9 counterexample: with the input query named "q1.wav" and a
non-empty document set, the aggregation key is the stripped name "q1"; the
raw input query name "q1.wav" does not appear as a key, refuting the claim as
stated. -/
theorem aggregate_keys_counterexample :
    (aggregate (submitJobs (fun _ _ => (0:ℚ)) [(((), "q1.wav") : Unit × String)]
      [((), "d1")])).map Prod.fst = ["q1"] ∧
    "q1.wav" ∉ (aggregate (submitJobs (fun _ _ => (0:ℚ))
      [(((), "q1.wav") : Unit × String)] [((), "d1")])).map Prod.fst := by
  constructor
  · rfl
  · decide

theorem submitJobs_single_doc_eval :
    submitJobs (fun _ _ => (0:ℚ)) [(((), "q1") : Unit × String)]
      [((), "doc.wav.wav")] = [⟨"q1", "doc", 0⟩] := by
  have h1 : stripWav "q1" = "q1" := by decide
  have h2 : stripWav "doc.wav.wav" = "doc" := by decide
  simp only [submitJobs, List.flatMap_cons, List.map_cons, List.map_nil,
    List.flatMap_nil, List.append_nil, matchPair, h1, h2, MatchResult.mk.injEq,
    List.cons.injEq, and_true, true_and]
  norm_num

theorem runPipeline_single_doc_eval :
    runPipeline (submitJobs (fun _ _ => (0:ℚ)) [(((), "q1") : Unit × String)]
      [((), "doc.wav.wav")]) = some [("q1", [⟨"doc", 0, "NO"⟩])] := by
  rw [submitJobs_single_doc_eval]
  have hest : thresholdEstimator ([(⟨"q1", "doc", 0⟩ : MatchResult)].map
      MatchResult.score) = some ⟨0, 0⟩ := by
    simp [thresholdEstimator, thresholdIndex, List.insertionSort, List.orderedInsert]
  rw [runPipeline, hest]
  simp only [aggregate, List.foldl_cons, List.foldl_nil, addResult, buildReport,
    List.map_cons, List.map_nil, mkTerm]
  norm_num

/-- Claim C7 (amended): every `file` attribute in the report equals a
document name with *every* occurrence of the substring ".wav" removed
(Python `str.replace` semantics), not only a trailing suffix; when ".wav"
occurs in a name only as a trailing suffix the two readings coincide. -/
theorem report_file_stripwav {α : Type} (sdtw : α → α → ℚ)
    (queries docs : List (α × String)) (arrivals : List MatchResult)
    (hperm : arrivals.Perm (submitJobs sdtw queries docs))
    (report : List (String × List TermEntry))
    (hrep : runPipeline arrivals = some report) :
    ∀ g ∈ report, ∀ e ∈ g.2, ∃ dp ∈ docs, e.file = stripWav dp.2 := by
  intro g hg e he
  cases hest : thresholdEstimator (arrivals.map MatchResult.score) with
  | none =>
    rw [runPipeline, hest] at hrep
    cases hrep
  | some t =>
    rw [runPipeline, hest, Option.some.injEq] at hrep
    rw [← hrep] at hg
    obtain ⟨g0, hg0, hgeq⟩ := List.mem_map.mp hg
    rw [← hgeq] at he
    obtain ⟨p, hp, hpeq⟩ := List.mem_map.mp he
    obtain ⟨r, hr, hq, hdn, hs⟩ := pairs_aggregate arrivals g0 hg0 p hp
    obtain ⟨qp, hqp, dp, hdp, heq⟩ :=
      (mem_submitJobs sdtw queries docs r).mp (hperm.subset hr)
    refine ⟨dp, hdp, ?_⟩
    rw [← hpeq]
    show p.1 = stripWav dp.2
    rw [hdn, ← heq]
    rfl

theorem report_file_stripwav_witness :
    ∃ dp ∈ [(((), "doc.wav.wav") : Unit × String)],
      (TermEntry.mk "doc" 0 "NO").file = stripWav dp.2 :=
  report_file_stripwav (fun _ _ => (0:ℚ)) [(((), "q1") : Unit × String)]
    [((), "doc.wav.wav")] _ (List.Perm.refl _) [("q1", [⟨"doc", 0, "NO"⟩])]
    runPipeline_single_doc_eval ("q1", [⟨"doc", 0, "NO"⟩])
    (List.mem_singleton.mpr rfl) ⟨"doc", 0, "NO"⟩ (List.mem_singleton.mpr rfl)

/-- Claim C7 counterexample: for the document named "doc.wav.wav" the report
writes `file` = "doc" (every ".wav" occurrence removed), while stripping only
the trailing container-format suffix would give "doc.wav"; the characters of
the non-trailing ".wav" are not preserved verbatim, refuting the claim as
stated. -/
theorem report_file_trailing_counterexample :
    runPipeline (submitJobs (fun _ _ => (0:ℚ)) [(((), "q1") : Unit × String)]
      [((), "doc.wav.wav")]) = some [("q1", [⟨"doc", 0, "NO"⟩])] ∧
    stripTrailingWav "doc.wav.wav" = "doc.wav" ∧
    ("doc" : String) ≠ "doc.wav" :=
  ⟨runPipeline_single_doc_eval, by decide, by decide⟩

end Quesst14
